import Mathlib

/-!
Verification development for the `rs-genshin-midi-player` repository.

The definitions below are a shallow embedding of `src/midi.rs` and
`src/convert.rs`: Rust `f64`/`f32` values that only ever hold exact
small rationals are modelled as `ℚ`, machine integers as `ℤ`/`ℕ`,
`Vec` as `List`, and the few side effects (pushing to a vector,
assigning shared state) as explicit functional state passing.
-/

/-- The fixed 42-entry playable-pitch table (`MAP` in `src/midi.rs`). -/
def MAP : List Int :=
  [24, 26, 28, 29, 31, 33, 35, 36, 38, 40, 41, 43, 45, 47, 48, 50, 52, 53,
   55, 57, 59, 60, 62, 64, 65, 67, 69, 71, 72, 74, 76, 77, 79, 81, 83, 84,
   86, 88, 89, 91, 93, 95]

/-- A playback event (`Event` in `src/midi.rs`): a pitch and the delay in
milliseconds since the previous emitted event. -/
structure Event where
  press : Int
  delay : ℚ
deriving DecidableEq

/-- The hit-count loop inside `tune_offset`: how many events of the
sequence land inside `MAP` after shifting by `offset`. -/
def hitCount (events : List Event) (offset : Int) : ℚ :=
  events.foldl (fun acc msg => if MAP.contains (msg.press + offset) then acc + 1 else acc) 0

/-- `tune_offset` from `src/midi.rs`: pushes `hit_count / len` for the
current offset, then recurses one step further in the given direction
until the magnitude bound check (placed after the push) fires.  The
returned list is the sequence of pushed hit rates. -/
def tune_offset (events : List Event) (len : ℚ) (offset : Int) (direction : Bool) : List ℚ :=
  let hit := hitCount events offset / len
  match direction with
  | true =>
      if h : offset > 21 then [hit]
      else hit :: tune_offset events len (offset + 1) true
  | false =>
      if h : offset < -21 then [hit]
      else hit :: tune_offset events len (offset - 1) false
termination_by (if direction then 22 - offset else 22 + offset).toNat
decreasing_by
  all_goals simp_wf
  all_goals omega

/-- The winner-selection loop in `tune`: walk the enumerated hit list,
recording the value and index each time a hit rate strictly exceeds the
running maximum (initially 0). Returns `(max, shift)`. -/
def bestHit : List ℚ → Int → ℚ → Int → ℚ × Int
  | [], _, mx, shift => (mx, shift)
  | x :: xs, i, mx, shift =>
      if x > mx then bestHit xs (i + 1) x i else bestHit xs (i + 1) mx shift

/-- `tune` from `src/midi.rs`: run the upward and downward scans, pick
each scan's first-maximum index, and combine with
`if up_shift > down_shift then up_shift else -down_shift`. -/
def tune (events : List Event) : Int :=
  let len : ℚ := events.length
  let up := bestHit (tune_offset events len 0 true) 0 0 0
  let down := bestHit (tune_offset events len 0 false) 0 0 0
  if up.2 > down.2 then up.2 else -down.2

/-- Modelled from the spec: the combination rule the spec describes for
the two scan winners — keep the upward winner unless the downward
winner's hit-rate score is strictly greater (the comparison being
between the winners' hit rates, not their offsets). -/
def tune_spec (events : List Event) : Int :=
  let len : ℚ := events.length
  let up := bestHit (tune_offset events len 0 true) 0 0 0
  let down := bestHit (tune_offset events len 0 false) 0 0 0
  if down.1 > up.1 then -down.2 else up.2

/-- The hit rate of a single candidate offset, written directly. -/
def hitRate (events : List Event) (offset : Int) : ℚ :=
  hitCount events offset / events.length

/-- Closed form of the upward scan: hit rates of offsets `0, 1, ..., 22`. -/
def upHits (events : List Event) : List ℚ :=
  (List.range 23).map fun i : ℕ => hitRate events (i : Int)

/-- Closed form of the downward scan: hit rates of offsets `0, -1, ..., -22`. -/
def downHits (events : List Event) : List ℚ :=
  (List.range 23).map fun i : ℕ => hitRate events (-(i : Int))

/-- The upward scan's winning shift: index of the first strict maximum of `upHits`. -/
def upWinner (events : List Event) : Int := (bestHit (upHits events) 0 0 0).2

/-- The downward scan's winning shift magnitude: index of the first strict
maximum of `downHits` (the code negates it on return). -/
def downWinner (events : List Event) : Int := (bestHit (downHits events) 0 0 0).2

lemma tune_offset_true_eq (events : List Event) (len : ℚ) :
    ∀ (n : ℕ) (offset : Int), offset + n = 22 →
      tune_offset events len offset true =
        (List.range (n + 1)).map fun i : ℕ => hitCount events (offset + (i : Int)) / len := by
  intro n
  induction n with
  | zero =>
      intro offset h
      rw [tune_offset]
      simp only [Nat.cast_zero, add_zero] at h
      rw [dif_pos (by omega : offset > 21)]
      simp [List.range_succ]
  | succ n ih =>
      intro offset h
      push_cast at h
      rw [tune_offset]
      rw [dif_neg (by omega : ¬ offset > 21)]
      rw [ih (offset + 1) (by omega)]
      conv_rhs => rw [List.range_succ_eq_map]
      simp only [List.map_cons, List.map_map, Nat.cast_zero, add_zero]
      refine congrArg₂ List.cons rfl ?_
      refine List.map_congr_left ?_
      intro a _
      simp only [Function.comp_apply]
      push_cast
      ring_nf

lemma tune_offset_false_eq (events : List Event) (len : ℚ) :
    ∀ (n : ℕ) (offset : Int), (n : Int) = 22 + offset →
      tune_offset events len offset false =
        (List.range (n + 1)).map fun i : ℕ => hitCount events (offset - (i : Int)) / len := by
  intro n
  induction n with
  | zero =>
      intro offset h
      rw [tune_offset]
      simp only [Nat.cast_zero] at h
      rw [dif_pos (by omega : offset < -21)]
      simp [List.range_succ]
  | succ n ih =>
      intro offset h
      push_cast at h
      rw [tune_offset]
      rw [dif_neg (by omega : ¬ offset < -21)]
      rw [ih (offset - 1) (by omega)]
      conv_rhs => rw [List.range_succ_eq_map]
      simp only [List.map_cons, List.map_map, Nat.cast_zero, sub_zero]
      refine congrArg₂ List.cons rfl ?_
      refine List.map_congr_left ?_
      intro a _
      simp only [Function.comp_apply]
      push_cast
      ring_nf

lemma tune_offset_zero_true (events : List Event) (len : ℚ) :
    tune_offset events len 0 true =
      (List.range 23).map fun i : ℕ => hitCount events (i : Int) / len := by
  have h := tune_offset_true_eq events len 22 0 (by norm_num)
  simpa using h

lemma tune_offset_zero_false (events : List Event) (len : ℚ) :
    tune_offset events len 0 false =
      (List.range 23).map fun i : ℕ => hitCount events (-(i : Int)) / len := by
  have h := tune_offset_false_eq events len 22 0 (by norm_num)
  simpa [sub_eq_neg_add] using h

lemma tune_eq_winners (events : List Event) :
    tune events =
      if upWinner events > downWinner events then upWinner events
      else -(downWinner events) := by
  simp only [tune, upWinner, downWinner, upHits, downHits, hitRate,
    tune_offset_zero_true, tune_offset_zero_false]

lemma tune_spec_eq_winners (events : List Event) :
    tune_spec events =
      if (bestHit (downHits events) 0 0 0).1 > (bestHit (upHits events) 0 0 0).1
      then -(downWinner events) else upWinner events := by
  simp only [tune_spec, upWinner, downWinner, upHits, downHits, hitRate,
    tune_offset_zero_true, tune_offset_zero_false]

lemma bestHit_snd_bound (xs : List ℚ) : ∀ (i : Int) (mx : ℚ) (s : Int),
    (bestHit xs i mx s).2 = s ∨
      (i ≤ (bestHit xs i mx s).2 ∧ (bestHit xs i mx s).2 < i + xs.length) := by
  induction xs with
  | nil => intro i mx s; left; rfl
  | cons x xs ih =>
      intro i mx s
      simp only [bestHit, List.length_cons]
      by_cases h : x > mx
      · rw [if_pos h]
        rcases ih (i + 1) x i with h1 | ⟨h2, h3⟩
        · right
          rw [h1]
          push_cast
          omega
        · right
          push_cast at h3 ⊢
          omega
      · rw [if_neg h]
        rcases ih (i + 1) mx s with h1 | ⟨h2, h3⟩
        · left; exact h1
        · right
          push_cast at h3 ⊢
          omega

lemma upWinner_bound (events : List Event) :
    0 ≤ upWinner events ∧ upWinner events ≤ 22 := by
  have hlen : (upHits events).length = 23 := by simp [upHits]
  rcases bestHit_snd_bound (upHits events) 0 0 0 with h | ⟨h1, h2⟩
  · rw [upWinner, h]
    omega
  · rw [hlen] at h2
    rw [upWinner]
    push_cast at h2
    omega

lemma downWinner_bound (events : List Event) :
    0 ≤ downWinner events ∧ downWinner events ≤ 22 := by
  have hlen : (downHits events).length = 23 := by simp [downHits]
  rcases bestHit_snd_bound (downHits events) 0 0 0 with h | ⟨h1, h2⟩
  · rw [downWinner, h]
    omega
  · rw [hlen] at h2
    rw [downWinner]
    push_cast at h2
    omega

lemma range23_eq :
    List.range 23 =
      [0, 1, 2, 3, 4, 5, 6, 7, 8, 9, 10, 11, 12, 13, 14, 15, 16, 17, 18, 19,
       20, 21, 22] := rfl

lemma upHits_cex25 :
    upHits [⟨25, 0⟩] =
      [0, 1, 0, 1, 1, 0, 1, 0, 1, 0, 1, 1, 0, 1, 0, 1, 1, 0, 1, 0, 1, 0, 1] := by
  norm_num [upHits, hitRate, hitCount, MAP, range23_eq]

lemma downHits_cex25 :
    downHits [⟨25, 0⟩] =
      [0, 1, 0, 0, 0, 0, 0, 0, 0, 0, 0, 0, 0, 0, 0, 0, 0, 0, 0, 0, 0, 0, 0] := by
  norm_num [downHits, hitRate, hitCount, MAP, range23_eq]

/-- Claim C1, counterexample: for the single-event sequence with pitch 25 the
upward winner is offset +1 and the downward winner is magnitude 1, with equal
hit rates 1; the spec's hit-rate comparison keeps the upward winner (+1), but
`tune` compares the two winning offsets themselves (`up_shift > down_shift`)
and returns -1. -/
theorem tune_hit_rate_comparison_cex :
    tune [⟨25, 0⟩] = -1 ∧ tune_spec [⟨25, 0⟩] = 1 ∧ ((-1 : Int) ≠ 1) := by
  refine ⟨?_, ?_, by decide⟩
  · rw [tune_eq_winners, upWinner, downWinner, upHits_cex25, downHits_cex25]
    norm_num [bestHit]
  · rw [tune_spec_eq_winners, upWinner, downWinner, upHits_cex25, downHits_cex25]
    norm_num [bestHit]

/-- Claim C1, amended: for every non-empty event sequence the combined result
is decided by comparing the two winners' shift magnitudes (their scan
indices), not their hit rates: the upward winner is returned exactly when its
offset is strictly greater than the downward winner's magnitude, and otherwise
the negated downward magnitude is returned. -/
theorem tune_combines_by_shift_magnitude (events : List Event)
    (hne : events ≠ []) :
    tune events =
      if upWinner events > downWinner events then upWinner events
      else -(downWinner events) :=
  tune_eq_winners events

/-- Witness for `tune_combines_by_shift_magnitude` at the one-event sequence
with pitch 25. -/
theorem tune_combines_by_shift_magnitude_witness :
    ([⟨25, 0⟩] : List Event) ≠ [] ∧
      tune [⟨25, 0⟩] =
        (if upWinner [⟨25, 0⟩] > downWinner [⟨25, 0⟩] then upWinner [⟨25, 0⟩]
         else -(downWinner [⟨25, 0⟩])) :=
  ⟨by simp, tune_combines_by_shift_magnitude [⟨25, 0⟩] (by simp)⟩

lemma upHits_cex2 :
    upHits [⟨2, 0⟩] =
      [0, 0, 0, 0, 0, 0, 0, 0, 0, 0, 0, 0, 0, 0, 0, 0, 0, 0, 0, 0, 0, 0, 1] := by
  norm_num [upHits, hitRate, hitCount, MAP, range23_eq]

lemma downHits_cex2 :
    downHits [⟨2, 0⟩] =
      [0, 0, 0, 0, 0, 0, 0, 0, 0, 0, 0, 0, 0, 0, 0, 0, 0, 0, 0, 0, 0, 0, 0] := by
  norm_num [downHits, hitRate, hitCount, MAP, range23_eq]

/-- Claim C2, counterexample: the bound check in `tune_offset` runs after the
push, so each scan covers magnitudes 0..22; on the one-event sequence with
pitch 2 the only playable shift is +22, and `tune` returns 22, outside
[-21, 21]. -/
theorem tune_offset_range_cex :
    tune [⟨2, 0⟩] = 22 ∧ ¬(-21 ≤ tune [⟨2, 0⟩] ∧ tune [⟨2, 0⟩] ≤ 21) := by
  have h : tune [⟨2, 0⟩] = 22 := by
    rw [tune_eq_winners, upWinner, downWinner, upHits_cex2, downHits_cex2]
    norm_num [bestHit]
  refine ⟨h, ?_⟩
  rw [h]
  decide

/-- Claim C2, amended: for every event sequence the offset returned by `tune`
lies in the integer interval [-22, +22]; each directional scan considers
candidate offsets of magnitude at most 22 and the returned winner is one of
the scanned candidates. -/
theorem tune_result_in_range_22 (events : List Event) :
    -22 ≤ tune events ∧ tune events ≤ 22 := by
  rw [tune_eq_winners]
  obtain ⟨hu1, hu2⟩ := upWinner_bound events
  obtain ⟨hd1, hd2⟩ := downWinner_bound events
  split_ifs <;> omega

lemma upHits_nil :
    upHits [] =
      [0, 0, 0, 0, 0, 0, 0, 0, 0, 0, 0, 0, 0, 0, 0, 0, 0, 0, 0, 0, 0, 0, 0] := by
  norm_num [upHits, hitRate, hitCount, range23_eq]

lemma downHits_nil :
    downHits [] =
      [0, 0, 0, 0, 0, 0, 0, 0, 0, 0, 0, 0, 0, 0, 0, 0, 0, 0, 0, 0, 0, 0, 0] := by
  norm_num [downHits, hitRate, hitCount, range23_eq]

/-- Claim C6: on the empty event sequence `tune` evaluates without error
(the 0/0 hit rates are junk values that never beat the initial maximum) and
returns offset 0. -/
theorem tune_empty_returns_zero : tune ([] : List Event) = 0 := by
  rw [tune_eq_winners, upWinner, downWinner, upHits_nil, downHits_nil]
  norm_num [bestHit]

/-- The event kinds the extraction walk in `Midi::init` distinguishes: a
tempo meta-event, a note-on message, a note-off message, and everything
else (the code's catch-all arm treats the last two identically). -/
inductive MidiKind where
  | tempo (t : ℕ)
  | noteOn (key : ℕ) (vel : ℕ)
  | noteOff (key : ℕ) (vel : ℕ)
  | other
deriving DecidableEq

/-- A track event annotated with its absolute tick (`RawEvent` in
`src/midi.rs`). Ticks are sums of unsigned deltas, hence naturals. -/
structure RawEvent where
  kind : MidiKind
  tick : ℕ
deriving DecidableEq

/-- The header timing field: tick-based (`Timing::Metrical`) or anything
else. -/
inductive MidiTiming where
  | metrical (n : ℕ)
  | nonMetrical
deriving DecidableEq

/-- The `fps` computation in `Midi::init`: ticks per quarter note from a
metrical header, 480 otherwise. -/
def fpsOf : MidiTiming → ℚ
  | .metrical n => n
  | .nonMetrical => 480

/-- The per-track walk in `Midi::init`: accumulate each event's delta into
a running tick counter and tag the event with the resulting absolute tick. -/
def absTicks (tick : ℕ) : List (ℕ × MidiKind) → List RawEvent
  | [] => []
  | (delta, kind) :: rest => ⟨kind, tick + delta⟩ :: absTicks (tick + delta) rest

/-- The merge in `Midi::init`: concatenate all tracks' tagged events and
stable-sort by absolute tick (`par_sort_by_key(|e| e.tick as u64)`). -/
def mergeSorted (tracks : List (List (ℕ × MidiKind))) : List RawEvent :=
  ((tracks.map (absTicks 0)).flatten).mergeSort fun a b => a.tick ≤ b.tick

/-- The `filter_map` walk in `Midi::init`: thread `tick` (the last emitted
note-on's tick) and `tempo` through the merged sequence, emitting an
`Event` for every note-on with positive velocity. -/
def extract (fps : ℚ) : List RawEvent → ℚ → ℚ → List Event
  | [], _, _ => []
  | e :: rest, lastTick, tempo =>
    match e.kind with
    | .tempo t => extract fps rest lastTick (t : ℚ)
    | .noteOn key vel =>
        if 0 < vel then
          ⟨(key : Int), ((e.tick : ℚ) - lastTick) * (tempo / 1000 / fps)⟩ ::
            extract fps rest (e.tick : ℚ) tempo
        else extract fps rest lastTick tempo
    | _ => extract fps rest lastTick tempo

/-- `Midi::init`'s event extraction: parse header timing, merge and sort
the tracks, then walk with initial `tick = 0` and `tempo = 500000`. -/
def Midi_init (timing : MidiTiming) (tracks : List (List (ℕ × MidiKind))) : List Event :=
  extract (fpsOf timing) (mergeSorted tracks) 0 500000

/-- Does this raw event emit a `NoteEvent` (note-on with velocity > 0)? -/
def isNoteOnPos (e : RawEvent) : Bool :=
  match e.kind with
  | .noteOn _ vel => 0 < vel
  | _ => false

/-- The key carried by a note-on raw event (0 for other kinds). -/
def keyOf (e : RawEvent) : Int :=
  match e.kind with
  | .noteOn key _ => (key : Int)
  | _ => 0

/-- Spec-side bookkeeping walk: for each emitted note-on, its key, its
absolute tick, and the tempo in effect when it is emitted (the last tempo
meta-event seen earlier, initially the given one). Carries no delay
computation. -/
def notesTempo : List RawEvent → ℕ → List (ℕ × ℕ × ℕ)
  | [], _ => []
  | e :: rest, tempo =>
    match e.kind with
    | .tempo t => notesTempo rest t
    | .noteOn key vel =>
        if 0 < vel then (key, e.tick, tempo) :: notesTempo rest tempo
        else notesTempo rest tempo
    | _ => notesTempo rest tempo

/-- The spec's per-event delay formula:
`(tick_now - tick_prev) * (current_tempo / 1000 / ticksPerQuarter)`. -/
def delayFormula (fps tick prevTick tempo : ℚ) : ℚ :=
  (tick - prevTick) * (tempo / 1000 / fps)

lemma extract_eq_formula (fps : ℚ) :
    ∀ (es : List RawEvent) (lastTick : ℚ) (tempo : ℕ),
      extract fps es lastTick (tempo : ℚ) =
        ((notesTempo es tempo).zip
            (lastTick :: (notesTempo es tempo).map fun x => ((x.2.1 : ℕ) : ℚ))).map
          fun p => ⟨(p.1.1 : Int), delayFormula fps (p.1.2.1 : ℚ) p.2 (p.1.2.2 : ℚ)⟩ := by
  intro es
  induction es with
  | nil => intro lastTick tempo; rfl
  | cons e rest ih =>
      intro lastTick tempo
      match hk : e.kind with
      | .tempo t =>
          rw [extract, notesTempo, hk]
          exact ih lastTick t
      | .noteOn key vel =>
          rw [extract, notesTempo, hk]
          dsimp only
          by_cases hv : 0 < vel
          · rw [if_pos hv, if_pos hv]
            simp only [List.map_cons, List.zip_cons_cons, List.map_cons]
            refine congrArg₂ List.cons rfl ?_
            exact ih (e.tick : ℚ) tempo
          · rw [if_neg hv, if_neg hv]
            exact ih lastTick tempo
      | .noteOff key vel =>
          rw [extract, notesTempo, hk]
          exact ih lastTick tempo
      | .other =>
          rw [extract, notesTempo, hk]
          exact ih lastTick tempo

/-- Claim C3: each emitted NoteEvent's delay is exactly
`(tick_now - tick_prev) * (current_tempo / 1000 / ticksPerQuarter)`, with
`current_tempo` starting at 500000 and threaded through earlier tempo
meta-events, `tick_prev` starting at 0 and updated only by emitted
note-ons, and `ticksPerQuarter` from the header (480 when non-metrical). -/
theorem extract_delay_formula (timing : MidiTiming)
    (tracks : List (List (ℕ × MidiKind))) :
    (Midi_init timing tracks =
      ((notesTempo (mergeSorted tracks) 500000).zip
          ((0 : ℚ) ::
            (notesTempo (mergeSorted tracks) 500000).map fun x => ((x.2.1 : ℕ) : ℚ))).map
        fun p => ⟨(p.1.1 : Int), delayFormula (fpsOf timing) (p.1.2.1 : ℚ) p.2 (p.1.2.2 : ℚ)⟩)
      ∧ fpsOf MidiTiming.nonMetrical = 480 := by
  refine ⟨?_, rfl⟩
  have h := extract_eq_formula (fpsOf timing) (mergeSorted tracks) 0 500000
  simpa [Midi_init] using h

lemma extract_map_press (fps : ℚ) :
    ∀ (es : List RawEvent) (lastTick : ℚ) (tempo : ℚ),
      (extract fps es lastTick tempo).map (fun e => e.press) =
        (es.filter isNoteOnPos).map keyOf := by
  intro es
  induction es with
  | nil => intro lastTick tempo; rfl
  | cons e rest ih =>
      intro lastTick tempo
      match hk : e.kind with
      | .tempo t =>
          rw [extract, List.filter_cons, hk]
          simp only [isNoteOnPos, hk]
          exact ih lastTick (t : ℚ)
      | .noteOn key vel =>
          rw [extract, List.filter_cons, hk]
          simp only [isNoteOnPos, hk]
          by_cases hv : 0 < vel
          · rw [if_pos hv]
            simp only [hv, decide_eq_true_eq, if_true, decide_true_eq_true,
              List.map_cons]
            refine congrArg₂ List.cons ?_ (ih (e.tick : ℚ) tempo)
            simp [keyOf, hk]
          · rw [if_neg hv]
            simp only [hv, decide_eq_true_eq, if_false, decide_false_eq_false]
            exact ih lastTick tempo
      | .noteOff key vel =>
          rw [extract, List.filter_cons, hk]
          simp only [isNoteOnPos, hk]
          exact ih lastTick tempo
      | .other =>
          rw [extract, List.filter_cons, hk]
          simp only [isNoteOnPos, hk]
          exact ih lastTick tempo

/-- Claim C4: the extraction emits exactly one NoteEvent per note-on with
velocity > 0 — the emitted pitches are the keys of the positive-velocity
note-ons of the merged sequence in order, and the number of emitted events
equals the number of positive-velocity note-ons of the raw (pre-sort)
merged input; tempo events, velocity-0 note-ons, note-offs and all other
kinds are never emitted. -/
theorem extract_emits_exactly_positive_noteons (timing : MidiTiming)
    (tracks : List (List (ℕ × MidiKind))) :
    (Midi_init timing tracks).map (fun e => e.press) =
        ((mergeSorted tracks).filter isNoteOnPos).map keyOf ∧
      (Midi_init timing tracks).length =
        ((tracks.map (absTicks 0)).flatten.filter isNoteOnPos).length := by
  constructor
  · exact extract_map_press (fpsOf timing) (mergeSorted tracks) 0 500000
  · have h1 : (Midi_init timing tracks).length =
        ((mergeSorted tracks).filter isNoteOnPos).length := by
      have := congrArg List.length
        (extract_map_press (fpsOf timing) (mergeSorted tracks) 0 500000)
      simpa [Midi_init] using this
    rw [h1]
    have hperm : List.Perm (mergeSorted tracks) ((tracks.map (absTicks 0)).flatten) :=
      List.mergeSort_perm _ _
    exact (hperm.filter isNoteOnPos).length_eq

lemma mergeSorted_pairwise (tracks : List (List (ℕ × MidiKind))) :
    (mergeSorted tracks).Pairwise fun a b => a.tick ≤ b.tick := by
  have h := @List.sorted_mergeSort RawEvent
    (fun a b => decide (a.tick ≤ b.tick))
    (by intro a b c hab hbc
        simp only [decide_eq_true_eq] at hab hbc ⊢
        omega)
    (by intro a b
        simp only [Bool.or_eq_true, decide_eq_true_eq]
        exact Nat.le_total a.tick b.tick)
    ((tracks.map (absTicks 0)).flatten)
  refine List.Pairwise.imp ?_ h
  intro a b hab
  simpa using hab

lemma fpsOf_nonneg (timing : MidiTiming) : 0 ≤ fpsOf timing := by
  cases timing with
  | metrical n => simp [fpsOf]
  | nonMetrical => norm_num [fpsOf]

lemma extract_delay_nonneg (fps : ℚ) (hfps : 0 ≤ fps) :
    ∀ (es : List RawEvent) (lastTick tempo : ℚ),
      0 ≤ tempo →
      es.Pairwise (fun a b => a.tick ≤ b.tick) →
      (∀ e ∈ es, lastTick ≤ (e.tick : ℚ)) →
      ∀ ev ∈ extract fps es lastTick tempo, 0 ≤ ev.delay := by
  intro es
  induction es with
  | nil => intro lastTick tempo _ _ _ ev hev; simp [extract] at hev
  | cons e rest ih =>
      intro lastTick tempo htempo hpw hlt ev hev
      rw [extract] at hev
      match hk : e.kind with
      | .tempo t =>
          rw [hk] at hev
          exact ih lastTick (t : ℚ) (by positivity) hpw.of_cons
            (fun x hx => hlt x (List.mem_cons_of_mem e hx)) ev hev
      | .noteOn key vel =>
          rw [hk] at hev
          dsimp only at hev
          by_cases hv : 0 < vel
          · rw [if_pos hv] at hev
            rcases List.mem_cons.mp hev with h1 | h1
            · subst h1
              have h2 : lastTick ≤ ((e.tick : ℕ) : ℚ) := hlt e (List.mem_cons_self e rest)
              have h3 : (0 : ℚ) ≤ tempo / 1000 / fps :=
                div_nonneg (div_nonneg htempo (by norm_num)) hfps
              exact mul_nonneg (by linarith) h3
            · refine ih (e.tick : ℚ) tempo htempo hpw.of_cons ?_ ev h1
              intro x hx
              have := List.rel_of_pairwise_cons hpw hx
              exact_mod_cast this
          · rw [if_neg hv] at hev
            exact ih lastTick tempo htempo hpw.of_cons
              (fun x hx => hlt x (List.mem_cons_of_mem e hx)) ev hev
      | .noteOff key vel =>
          rw [hk] at hev
          exact ih lastTick tempo htempo hpw.of_cons
            (fun x hx => hlt x (List.mem_cons_of_mem e hx)) ev hev
      | .other =>
          rw [hk] at hev
          exact ih lastTick tempo htempo hpw.of_cons
            (fun x hx => hlt x (List.mem_cons_of_mem e hx)) ev hev

lemma prefix_sum_mono (l : List Event) (h : ∀ e ∈ l, 0 ≤ e.delay)
    (i j : ℕ) (hij : i ≤ j) :
    ((l.take i).map fun e => e.delay).sum ≤ ((l.take j).map fun e => e.delay).sum := by
  have h2 : (l.take j).take i = l.take i := by
    rw [List.take_take, min_eq_left hij]
  have h1 : l.take j = l.take i ++ (l.take j).drop i := by
    rw [← h2, List.take_append_drop]
  rw [h1, List.map_append, List.sum_append]
  have h3 : (0 : ℚ) ≤ (((l.take j).drop i).map fun e => e.delay).sum := by
    refine List.sum_nonneg ?_
    intro x hx
    obtain ⟨ev, hev, rfl⟩ := List.mem_map.mp hx
    exact h ev (List.mem_of_mem_take (List.mem_of_mem_drop hev))
  linarith

/-- Claim C5: all delays emitted by the extraction are non-negative (the
merged events are sorted by absolute tick before the walk), and hence the
cumulative scheduled time of the output sequence is non-decreasing. -/
theorem extract_delays_nonneg_cumulative_mono (timing : MidiTiming)
    (tracks : List (List (ℕ × MidiKind))) :
    (∀ ev ∈ Midi_init timing tracks, 0 ≤ ev.delay) ∧
      ∀ i j : ℕ, i ≤ j →
        (((Midi_init timing tracks).take i).map fun e => e.delay).sum ≤
          (((Midi_init timing tracks).take j).map fun e => e.delay).sum := by
  have hnn : ∀ ev ∈ Midi_init timing tracks, 0 ≤ ev.delay := by
    refine extract_delay_nonneg (fpsOf timing) (fpsOf_nonneg timing)
      (mergeSorted tracks) 0 500000 (by norm_num) (mergeSorted_pairwise tracks) ?_
    intro e _
    positivity
  exact ⟨hnn, fun i j hij => prefix_sum_mono _ hnn i j hij⟩

/-- Witness for `extract_delays_nonneg_cumulative_mono`: one track with a
single positive-velocity note-on. -/
theorem extract_delays_nonneg_cumulative_mono_witness :
    (∀ ev ∈ Midi_init MidiTiming.nonMetrical [[(3, MidiKind.noteOn 60 1)]], 0 ≤ ev.delay) ∧
      (((Midi_init MidiTiming.nonMetrical [[(3, MidiKind.noteOn 60 1)]]).take 0).map
          fun e => e.delay).sum ≤
        (((Midi_init MidiTiming.nonMetrical [[(3, MidiKind.noteOn 60 1)]]).take 1).map
          fun e => e.delay).sum :=
  ⟨(extract_delays_nonneg_cumulative_mono MidiTiming.nonMetrical
      [[(3, MidiKind.noteOn 60 1)]]).1,
   (extract_delays_nonneg_cumulative_mono MidiTiming.nonMetrical
      [[(3, MidiKind.noteOn 60 1)]]).2 0 1 (by norm_num)⟩

/-- The event loop of `Midi::play`, abstracted over the sequence of
`IS_PLAY` readings: on iteration `i` the loop (after its sleep) reads the
cancellation flag once; if it reads `true` it invokes the sink with the
event's pitch and continues, otherwise it breaks.  The returned list is
the sequence of sink invocations.  The sleep and the pause busy-wait do
not invoke the sink and do not alter which events reach it. -/
def playFrom (flag : ℕ → Bool) : ℕ → List Event → List Int
  | _, [] => []
  | i, e :: rest => if flag i then e.press :: playFrom flag (i + 1) rest else []

/-- `Midi::play`: run the loop from the first event with its flag readings. -/
def Midi_play (events : List Event) (flag : ℕ → Bool) : List Int :=
  playFrom flag 0 events

lemma playFrom_length_le (flag : ℕ → Bool) :
    ∀ (es : List Event) (i k : ℕ), i ≤ k → flag k = false →
      (playFrom flag i es).length ≤ k - i := by
  intro es
  induction es with
  | nil => intro i k _ _; simp [playFrom]
  | cons e rest ih =>
      intro i k hik hk
      rw [playFrom]
      by_cases hf : flag i
      · rw [if_pos hf]
        have hik2 : i + 1 ≤ k := by
          rcases Nat.eq_or_lt_of_le hik with h | h
          · exfalso
            rw [h, hk] at hf
            exact Bool.false_ne_true hf
          · omega
        have h2 := ih (i + 1) k hik2 hk
        simp only [List.length_cons]
        omega
      · rw [if_neg hf]
        simp

lemma playFrom_prefix (flag : ℕ → Bool) :
    ∀ (es : List Event) (i : ℕ),
      playFrom flag i es =
        (es.take (playFrom flag i es).length).map fun e => e.press := by
  intro es
  induction es with
  | nil => intro i; rfl
  | cons e rest ih =>
      intro i
      rw [playFrom]
      by_cases hf : flag i
      · rw [if_pos hf]
        simp only [List.length_cons, List.take_succ_cons, List.map_cons]
        exact congrArg₂ List.cons rfl (ih (i + 1))
      · rw [if_neg hf]
        rfl

/-- Claim C7: once the cancellation flag is observed cleared at some
iteration `k` (the flag is read after each per-event sleep and right
before each sink call), the sink is never invoked for that event nor any
later one: the invocation list is a prefix of the event pitches of length
at most `k`. -/
theorem play_cancellation_stops_sink (events : List Event) (flag : ℕ → Bool)
    (k : ℕ) (hk : flag k = false) :
    (Midi_play events flag).length ≤ k ∧
      Midi_play events flag =
        (events.take (Midi_play events flag).length).map fun e => e.press := by
  constructor
  · have h := playFrom_length_le flag events 0 k (Nat.zero_le k) hk
    simpa [Midi_play] using h
  · exact playFrom_prefix flag events 0

/-- Witness for `play_cancellation_stops_sink`: two events, flag true only
on the first read. -/
theorem play_cancellation_stops_sink_witness :
    (fun i => decide (i = 0)) 1 = false ∧
      (Midi_play [⟨60, 0⟩, ⟨62, 5⟩] (fun i => decide (i = 0))).length ≤ 1 ∧
      Midi_play [⟨60, 0⟩, ⟨62, 5⟩] (fun i => decide (i = 0)) =
        (([⟨60, 0⟩, ⟨62, 5⟩] : List Event).take
            (Midi_play [⟨60, 0⟩, ⟨62, 5⟩] (fun i => decide (i = 0))).length).map
          fun e => e.press := by
  have h := play_cancellation_stops_sink [⟨60, 0⟩, ⟨62, 5⟩]
    (fun i => decide (i = 0)) 1 rfl
  exact ⟨rfl, h.1, h.2⟩

/-- The Rust `as`-cast from `f64` to `u64` used on the sleep amount in
`Midi::play`: the cast saturates, sending every non-positive value to 0
and clamping values above `u64::MAX`; it never panics or wraps. -/
def f64_as_u64 (x : ℚ) : ℕ :=
  if x ≤ 0 then 0 else min ⌊x⌋.toNat (2 ^ 64 - 1)

/-- The per-event sleep computation in `Midi::play`:
`(input_time - playback_time) as u64` milliseconds. -/
def sleep_ms (input_time playback_time : ℚ) : ℕ :=
  f64_as_u64 (input_time - playback_time)

/-- Claim C10: whenever the cumulative scheduled time does not exceed the
elapsed wall-clock time, the saturating float-to-unsigned conversion of
the non-positive difference yields exactly 0 milliseconds of sleep. -/
theorem sleep_nonpositive_diff_zero (input_time playback_time : ℚ)
    (h : input_time ≤ playback_time) : sleep_ms input_time playback_time = 0 := by
  rw [sleep_ms, f64_as_u64, if_pos (by linarith : input_time - playback_time ≤ 0)]

/-- Witness for `sleep_nonpositive_diff_zero`: scheduled 5 ms, elapsed 7 ms. -/
theorem sleep_nonpositive_diff_zero_witness :
    (5 : ℚ) ≤ 7 ∧ sleep_ms 5 7 = 0 :=
  ⟨by norm_num, sleep_nonpositive_diff_zero 5 7 (by norm_num)⟩

/-- The shared state the `Midi::init` task touches: the stored file name
and the stored event sequence. -/
structure MidiState where
  file_name : Option String
  events : List Event
deriving DecidableEq

/-- The observable effect of one run of the `Midi::init` task after a file
is picked: the task first overwrites `file_name` with the picked path
(line 86 of `src/midi.rs`), then parses; when parsing fails the `unwrap`
panics and the task dies there (second component `false`), leaving the
stored events untouched; on success it replaces the events wholesale. -/
def Midi_init_task (st : MidiState) (path : String)
    (parsed : Option (MidiTiming × List (List (ℕ × MidiKind)))) :
    MidiState × Bool :=
  let st1 : MidiState := { st with file_name := some path }
  match parsed with
  | none => (st1, false)
  | some (timing, tracks) => ({ st1 with events := Midi_init timing tracks }, true)

/-- Claim C8, counterexample: a failed parse does leave the stored events
unchanged and produces no partial sequence, but the stored file name has
already been overwritten with the newly picked path, so the prior
file-name state is not left unchanged. -/
theorem init_failure_filename_cex :
    (Midi_init_task ⟨some "old.mid", [⟨60, 1⟩]⟩ "new.mid" none).1.events =
        [⟨60, 1⟩] ∧
      (Midi_init_task ⟨some "old.mid", [⟨60, 1⟩]⟩ "new.mid" none).2 = false ∧
      (Midi_init_task ⟨some "old.mid", [⟨60, 1⟩]⟩ "new.mid" none).1.file_name ≠
        some "old.mid" := by
  refine ⟨rfl, rfl, ?_⟩
  simp [Midi_init_task]

/-- Claim C8, amended: when the picked file's bytes are malformed the
extraction task fails as a whole (the parse `unwrap` panics before any
event is produced): no partial event sequence is produced and the
previously stored events are left unchanged — but the stored file name
has already been set to the newly picked path. -/
theorem init_failure_preserves_events (st : MidiState) (path : String) :
    (Midi_init_task st path none).2 = false ∧
      (Midi_init_task st path none).1.events = st.events ∧
      (Midi_init_task st path none).1.file_name = some path :=
  ⟨rfl, rfl, rfl⟩

/-- The pitch-to-letter table of `convert_from_midi` in `src/convert.rs`
(Rust `String` modelled as `List Char`); pitches outside the table push
nothing. -/
def letterOf : Int → List Char
  | 24 => ['z'] | 26 => ['x'] | 28 => ['c'] | 29 => ['v'] | 31 => ['b']
  | 33 => ['n'] | 35 => ['m'] | 36 => ['z'] | 38 => ['x'] | 40 => ['c']
  | 41 => ['v'] | 43 => ['b'] | 45 => ['n'] | 47 => ['m'] | 48 => ['z']
  | 50 => ['x'] | 52 => ['c'] | 53 => ['v'] | 55 => ['b'] | 57 => ['n']
  | 59 => ['m'] | 60 => ['a'] | 62 => ['s'] | 64 => ['d'] | 65 => ['f']
  | 67 => ['g'] | 69 => ['h'] | 71 => ['j'] | 72 => ['q'] | 74 => ['w']
  | 76 => ['e'] | 77 => ['r'] | 79 => ['t'] | 81 => ['y'] | 83 => ['u']
  | 84 => ['q'] | 86 => ['w'] | 88 => ['e'] | 89 => ['r'] | 91 => ['t']
  | 93 => ['y'] | 95 => ['u']
  | _ => []

/-- The loop body of `convert_from_midi`: push the event's letter, then
the separator chosen by the guarded match on the delay (arms tried in
source order). -/
def convert_step (res : List Char) (e : Event) : List Char :=
  let res1 := res ++ letterOf e.press
  if 50 < e.delay ∧ e.delay ≤ 700 then res1 ++ [' ', '-', ' ']
  else if 700 < e.delay ∧ e.delay ≤ 2000 then res1 ++ [' ', '/', ' ']
  else if 2000 < e.delay then res1 ++ ['\n', '\n']
  else res1

/-- The letter transcript `res` built by `convert_from_midi` over the
event sequence. -/
def convert_res (events : List Event) : List Char :=
  events.foldl convert_step []

/-- Modelled from the spec: the separator determined by an inter-event
delay `d` — `" - "` when 50 < d ≤ 700, `" / "` when 700 < d ≤ 2000, two
newlines when d > 2000, nothing otherwise. -/
def sepSpec (d : ℚ) : List Char :=
  if 50 < d ∧ d ≤ 700 then [' ', '-', ' ']
  else if 700 < d ∧ d ≤ 2000 then [' ', '/', ' ']
  else if 2000 < d then ['\n', '\n']
  else []

lemma convert_step_eq (res : List Char) (e : Event) :
    convert_step res e = res ++ (letterOf e.press ++ sepSpec e.delay) := by
  rw [convert_step, sepSpec]
  split_ifs <;> simp [List.append_assoc]

lemma foldl_convert_step (events : List Event) :
    ∀ acc : List Char,
      events.foldl convert_step acc =
        acc ++ (events.map fun e => letterOf e.press ++ sepSpec e.delay).flatten := by
  induction events with
  | nil => intro acc; simp
  | cons e rest ih =>
      intro acc
      rw [List.foldl_cons, ih, List.map_cons, List.flatten_cons,
        convert_step_eq, List.append_assoc]

/-- Claim C9: the transcript appends, after each event's letter, exactly
the separator determined by that event's delay: `" - "` for
50 < d ≤ 700, `" / "` for 700 < d ≤ 2000, two newlines for d > 2000, and
nothing otherwise. -/
theorem convert_separator_thresholds (events : List Event) :
    convert_res events =
      (events.map fun e => letterOf e.press ++ sepSpec e.delay).flatten := by
  rw [convert_res, foldl_convert_step]
  rfl
